import Mathlib

/-!
Shallow embedding of the `smchash` crate (`src/smchash/src/lib.rs`): the
SMCHash digest engine and its compression function, the proof-of-work search
and verification built on it, and the example `Block` entity.

Machine integers are modelled as `Nat` with explicit reduction modulo `2^32`
(for `u32` arithmetic) and `2^64` (for the `u64` byte counter); byte strings
are `List Nat` whose elements are bytes (< 256) whenever they originate from
the engine. The two unbounded `while`/`loop` constructs of the source (the
chunk-draining loop and the proof-of-work search) are given explicit fuel;
for the draining and padding loops a sufficient fuel is supplied and proved
sufficient, for the proof-of-work search the fuel is a genuine termination
bound. Out-of-bounds indexing (reachable only for difficulties above 128)
is modelled by `Option`, `none` standing for the panic.
-/

/-- Left rotation of a 32-bit word (`rotl` in the source):
`(x << n) | (x >> (32 - n))`, the left shift truncated to 32 bits as `u32`
shifting does. -/
def rotl (x n : Nat) : Nat :=
  ((x <<< n) % 4294967296) ||| (x >>> (32 - n))

/-- The four 32-bit state words `state: [u32; 4]` of the digest engine. -/
structure State32 where
  s0 : Nat
  s1 : Nat
  s2 : Nat
  s3 : Nat

/-- The `i`-th little-endian 32-bit word of a 64-byte block
(`u32::from_le_bytes(block[4*i .. 4*i+4])` in `process_block`). -/
def blockWord (block : List Nat) (i : Nat) : Nat :=
  block.getD (4 * i) 0 + 256 * block.getD (4 * i + 1) 0 +
    65536 * block.getD (4 * i + 2) 0 + 16777216 * block.getD (4 * i + 3) 0

/-- Per-round boolean mixing function `f` of `process_block`; `!b` on `u32`
is bitwise complement within 32 bits, modelled as xor with `0xFFFFFFFF`. -/
def fMix (round b c d : Nat) : Nat :=
  match round with
  | 0 => (b &&& c) ||| ((b ^^^ 4294967295) &&& d)
  | 1 => (b &&& d) ||| (c &&& (d ^^^ 4294967295))
  | 2 => b ^^^ c ^^^ d
  | _ => c ^^^ (b ||| (d ^^^ 4294967295))

/-- Per-round message-word index permutation of `process_block`. -/
def wordIdx (round i : Nat) : Nat :=
  match round with
  | 0 => i
  | 1 => (5 * i + 1) % 16
  | 2 => (3 * i + 5) % 16
  | _ => (7 * i) % 16

/-- Per-round additive constant of `process_block`: a fixed base plus the
step index `i`. -/
def kConst (round i : Nat) : Nat :=
  (match round with
   | 0 => 0x79cc4519
   | 1 => 0x9d8a7a87
   | 2 => 0xe9b5dba5
   | _ => 0xc19bf274) + i

/-- Per-round rotation-amount table of `process_block`, indexed by `i % 4`. -/
def rotAmount (round i : Nat) : Nat :=
  (match round with
   | 0 => [7, 12, 17, 22]
   | 1 => [5, 9, 14, 20]
   | 2 => [4, 11, 16, 23]
   | _ => [6, 10, 15, 21]).getD (i % 4) 0

/-- The working registers `a, b, c, d` of `process_block`. -/
structure Regs where
  a : Nat
  b : Nat
  c : Nat
  d : Nat

/-- One step of the main mixing loop of `process_block`: the register-rotating
update `temp := d; d := c; c := b; b := b + rotl(a + f + words[idx] + k, s);
a := temp`, every addition wrapping modulo `2^32` (`wrapping_add`). -/
def mixStep (w : Nat → Nat) (round i : Nat) (r : Regs) : Regs :=
  { a := r.d
    b := (r.b + rotl ((((r.a + fMix round r.b r.c r.d) % 4294967296 +
            w (wordIdx round i)) % 4294967296 + kConst round i) % 4294967296)
          (rotAmount round i)) % 4294967296
    c := r.b
    d := r.c }

/-- `process_block`: compress one 64-byte chunk into the running state —
4 rounds of 16 steps on the working registers, then the elementwise wrapping
sum of the original state and the final registers. -/
def process_block (s : State32) (block : List Nat) : State32 :=
  let w := blockWord block
  let r := (List.range 4).foldl
    (fun r round => (List.range 16).foldl (fun r i => mixStep w round i r) r)
    ⟨s.s0, s.s1, s.s2, s.s3⟩
  { s0 := (s.s0 + r.a) % 4294967296
    s1 := (s.s1 + r.b) % 4294967296
    s2 := (s.s2 + r.c) % 4294967296
    s3 := (s.s3 + r.d) % 4294967296 }

/-- The digest engine `struct SMCHash`: state words, pending input buffer and
the 64-bit total byte counter. -/
structure SMCHash where
  state : State32
  buffer : List Nat
  total_bytes : Nat

/-- `SMCHash::new`: fixed initial state, empty buffer, zero counter. -/
def SMCHash.new : SMCHash :=
  { state := ⟨0x6a09e667, 0xbb67ae85, 0x3c6ef372, 0xa54ff53a⟩
    buffer := []
    total_bytes := 0 }

/-- Fuel-indexed form of the `while self.buffer.len() >= 64` draining loop
shared by `update` and `finalize`: each iteration compresses the first
64 buffered bytes and removes them. Every iteration consumes 64 bytes, so
fuel `buf.length` always suffices (see `drain`). -/
def drainN : Nat → State32 → List Nat → State32 × List Nat
  | 0, s, buf => (s, buf)
  | n + 1, s, buf =>
    if 64 ≤ buf.length then drainN n (process_block s (buf.take 64)) (buf.drop 64)
    else (s, buf)

/-- The draining loop of `update`/`finalize`, run to completion. -/
def drain (s : State32) (buf : List Nat) : State32 × List Nat :=
  drainN buf.length s buf

/-- `SMCHash::update`: append `data` to the buffer, add its length to the
(64-bit, wrapping) byte counter, then compress all complete 64-byte chunks. -/
def SMCHash.update (e : SMCHash) (data : List Nat) : SMCHash :=
  let p := drain e.state (e.buffer ++ data)
  { state := p.1
    buffer := p.2
    total_bytes := (e.total_bytes + data.length) % 18446744073709551616 }

/-- Little-endian byte serialization of a 32-bit word (`u32::to_le_bytes`). -/
def le4 (w : Nat) : List Nat :=
  [w % 256, w / 256 % 256, w / 65536 % 256, w / 16777216 % 256]

/-- Little-endian byte serialization of a 64-bit value (`u64::to_le_bytes`). -/
def le8 (n : Nat) : List Nat :=
  [n % 256, n / 256 % 256, n / 65536 % 256, n / 16777216 % 256,
   n / 4294967296 % 256, n / 1099511627776 % 256,
   n / 281474976710656 % 256, n / 72057594037927936 % 256]

/-- Serialization of the four state words, 4 little-endian bytes each, in
word order — the tail of `finalize`. -/
def stateBytes (s : State32) : List Nat :=
  le4 s.s0 ++ le4 s.s1 ++ le4 s.s2 ++ le4 s.s3

/-- Fuel-indexed form of the `while self.buffer.len() % 64 != 56 { push 0 }`
padding loop of `finalize`; at most 63 zero bytes are ever pushed, so fuel 64
always suffices (proved in `padLoop_eq_replicate`). -/
def padLoop : Nat → List Nat → List Nat
  | 0, buf => buf
  | n + 1, buf => if buf.length % 64 = 56 then buf else padLoop n (buf ++ [0])

/-- `SMCHash::finalize`: append `0x80`, pad with zeros until the length is
56 mod 64, append the 8-byte little-endian bit length (`total_bytes * 8`,
wrapping as `u64`), compress the now-complete chunks and serialize the
state. -/
def SMCHash.finalize (e : SMCHash) : List Nat :=
  let bit_len := e.total_bytes * 8 % 18446744073709551616
  let buf := padLoop 64 (e.buffer ++ [0x80]) ++ le8 bit_len
  stateBytes (drain e.state buf).1

/-- `SMCHash::hash`: one-shot digest (construct, update once, finalize). -/
def SMCHash.hash (data : List Nat) : List Nat :=
  SMCHash.finalize (SMCHash.new.update data)

/-- `SMCHash::verify`: recompute the digest and compare with the
constant-time accumulate-or-of-xor loop over the 16 byte pairs. -/
def SMCHash.verify (data expected_hash : List Nat) : Bool :=
  let computed_hash := SMCHash.hash data
  let result := (List.range 16).foldl
    (fun acc i => acc ||| (computed_hash.getD i 0 ^^^ expected_hash.getD i 0)) 0
  result == 0

/-- The `for i in 0..zeros_required` scan for nonzero bytes shared by
`create_proof_of_work` and `verify_proof_of_work`: starting at index `i` with
`r` indices left to inspect, `none` models the out-of-bounds panic and
`some false` the early exit on a nonzero byte. -/
def checkZeros (h : List Nat) : Nat → Nat → Option Bool
  | _, 0 => some true
  | i, r + 1 =>
    match h.get? i with
    | none => none
    | some b => if b ≠ 0 then some false else checkZeros h (i + 1) r

/-- The digest both proof-of-work operations compute for a nonce attempt:
`update(data); update(&nonce.to_le_bytes()); finalize()`. -/
def pow_hash (data : List Nat) (nonce : Nat) : List Nat :=
  SMCHash.finalize ((SMCHash.new.update data).update (le8 nonce))

/-- The search loop of `create_proof_of_work`, with explicit fuel bounding the
number of nonce attempts (the source loops unboundedly). `target_mask` is the
mask computed up front by `create_proof_of_work`; `none` means either that no
nonce below `start + fuel` was accepted or the out-of-bounds panic (reachable
only for difficulties above 128). -/
def create_aux (data : List Nat) (difficulty target_mask : Nat) :
    Nat → Nat → Option (Nat × List Nat)
  | 0, _ => none
  | fuel + 1, nonce =>
    let hash := pow_hash data nonce
    let zeros_required := difficulty / 8
    let bits_in_last_byte := difficulty % 8
    match checkZeros hash 0 zeros_required with
    | none => none
    | some false => create_aux data difficulty target_mask fuel (nonce + 1)
    | some true =>
      if bits_in_last_byte > 0 then
        match hash.get? zeros_required with
        | none => none
        | some b =>
          if b &&& target_mask = 0 then some (nonce, hash)
          else create_aux data difficulty target_mask fuel (nonce + 1)
      else some (nonce, hash)

/-- `SMCHash::create_proof_of_work` with explicit fuel: note the up-front
`target_mask`, which is `0xFF` whenever `difficulty >= 8` (not the
`difficulty % 8`-bit mask the written spec prescribes). -/
def SMCHash.create_proof_of_work (data : List Nat) (difficulty fuel : Nat) :
    Option (Nat × List Nat) :=
  let target_mask := if 8 ≤ difficulty then 255 else 255 >>> (8 - difficulty)
  create_aux data difficulty target_mask fuel 0

/-- `SMCHash::verify_proof_of_work`: recompute the digest, compare it with the
expected hash (early `false` on mismatch), then re-check the difficulty
predicate with the `difficulty % 8`-bit mask; `none` models the out-of-bounds
panic, reachable only for difficulties above 128. -/
def SMCHash.verify_proof_of_work (data : List Nat) (nonce difficulty : Nat)
    (expected_hash : List Nat) : Option Bool :=
  let hash := pow_hash data nonce
  if hash ≠ expected_hash then some false
  else
    let zeros_required := difficulty / 8
    let bits_in_last_byte := difficulty % 8
    let target_mask :=
      if bits_in_last_byte = 0 then 0 else 255 >>> (8 - bits_in_last_byte)
    match checkZeros hash 0 zeros_required with
    | none => none
    | some false => some false
    | some true =>
      if bits_in_last_byte > 0 then
        match hash.get? zeros_required with
        | none => none
        | some b => if b &&& target_mask ≠ 0 then some false else some true
      else some true

/-- The example blockchain record `struct Block`. -/
structure Block where
  prev_hash : List Nat
  data : List Nat
  timestamp : Nat
  nonce : Nat
  hash : List Nat

/-- `Block::get_hashable_data`: `prev_hash ‖ payload ‖ timestamp` with the
timestamp as 8 little-endian bytes. -/
def Block.get_hashable_data (b : Block) : List Nat :=
  b.prev_hash ++ b.data ++ le8 b.timestamp

/-- `Block::new`, with the mining fuel made explicit: build the preimage from
the provisional block, mine it, and store the resulting nonce and hash next
to the inputs. -/
def Block.new (prev_hash data : List Nat) (timestamp difficulty fuel : Nat) :
    Option Block :=
  let b0 : Block :=
    { prev_hash := prev_hash, data := data, timestamp := timestamp
      nonce := 0, hash := List.replicate 16 0 }
  match SMCHash.create_proof_of_work b0.get_hashable_data difficulty fuel with
  | none => none
  | some (nonce, hash) => some { b0 with nonce := nonce, hash := hash }

/-- `Block::validate`: rebuild the preimage from the stored fields and verify
the stored proof of work. -/
def Block.validate (b : Block) (difficulty : Nat) : Option Bool :=
  SMCHash.verify_proof_of_work b.get_hashable_data b.nonce difficulty b.hash

/-- The spec's leading-zero-bit predicate (design §4.3): the first
`difficulty / 8` bytes are `0x00` and, when `difficulty % 8 > 0`, the next
byte masked with `0xFF >> (8 - difficulty % 8)` is zero. Written from the
spec's words, for comparison with the check hard-wired into
`create_proof_of_work`. -/
def specLeadingZeros (h : List Nat) (difficulty : Nat) : Bool :=
  ((List.range (difficulty / 8)).all fun i => h.getD i 0 == 0) &&
    (if difficulty % 8 > 0 then
       h.getD (difficulty / 8) 0 &&& (255 >>> (8 - difficulty % 8)) == 0
     else true)

/-- The fully padded message `finalize` compresses, for a zero-pad count `k`:
`buffer ‖ 0x80 ‖ 0^k ‖ le8(total_bytes * 8 mod 2^64)`. -/
def paddedMsg (e : SMCHash) (k : Nat) : List Nat :=
  e.buffer ++ 128 :: (List.replicate k 0 ++
    le8 (e.total_bytes * 8 % 18446744073709551616))

/-! ### Properties of the chunk-draining loop -/

theorem drainN_congr : ∀ (n m : Nat) (s : State32) (buf : List Nat),
    buf.length ≤ n → buf.length ≤ m → drainN n s buf = drainN m s buf := by
  intro n
  induction n with
  | zero =>
    intro m s buf hn _
    have hb : buf = [] := List.eq_nil_of_length_eq_zero (Nat.le_zero.mp hn)
    subst hb
    cases m <;> simp [drainN]
  | succ n ih =>
    intro m s buf hn hm
    cases m with
    | zero =>
      have hb : buf = [] := List.eq_nil_of_length_eq_zero (Nat.le_zero.mp hm)
      subst hb
      simp [drainN]
    | succ m =>
      by_cases h64 : 64 ≤ buf.length
      · simp only [drainN, if_pos h64]
        exact ih m _ _ (by simp only [List.length_drop]; omega) (by simp only [List.length_drop]; omega)
      · simp only [drainN, if_neg h64]

theorem drainN_small (n : Nat) (s : State32) (buf : List Nat) (h : buf.length < 64) :
    drainN n s buf = (s, buf) := by
  cases n with
  | zero => rfl
  | succ n => simp only [drainN]; rw [if_neg (by omega)]

theorem drain_small (s : State32) (buf : List Nat) (h : buf.length < 64) :
    drain s buf = (s, buf) :=
  drainN_small _ s buf h

theorem drain_step (s : State32) (buf : List Nat) (h : 64 ≤ buf.length) :
    drain s buf = drain (process_block s (buf.take 64)) (buf.drop 64) := by
  unfold drain
  obtain ⟨n, hn⟩ : ∃ n, buf.length = n + 1 := ⟨buf.length - 1, by omega⟩
  rw [hn]
  simp only [drainN]
  rw [if_pos (hn ▸ h)]
  exact drainN_congr n _ _ _ (by simp only [List.length_drop]; omega)
    (by simp only [List.length_drop]; omega)

theorem drain_append (s : State32) (b y : List Nat) :
    drain s (b ++ y) = drain (drain s b).1 ((drain s b).2 ++ y) := by
  by_cases h : 64 ≤ b.length
  · have h' : 64 ≤ (b ++ y).length := by simp only [List.length_append]; omega
    rw [drain_step s (b ++ y) h', drain_step s b h,
      List.take_append_of_le_length h, List.drop_append_of_le_length h]
    exact drain_append (process_block s (b.take 64)) (b.drop 64) y
  · rw [drain_small s b (by omega)]
termination_by b.length
decreasing_by simp only [List.length_drop]; omega

theorem drain_snd_lt (s : State32) (buf : List Nat) : (drain s buf).2.length < 64 := by
  by_cases h : 64 ≤ buf.length
  · rw [drain_step s buf h]
    exact drain_snd_lt _ _
  · rw [drain_small s buf (by omega)]
    show buf.length < 64
    omega
termination_by buf.length
decreasing_by simp only [List.length_drop]; omega

theorem drain_snd_mod (s : State32) (buf : List Nat) :
    (drain s buf).2.length % 64 = buf.length % 64 := by
  by_cases h : 64 ≤ buf.length
  · rw [drain_step s buf h, drain_snd_mod _ _]
    simp [List.length_drop]
    omega
  · rw [drain_small s buf (by omega)]
termination_by buf.length
decreasing_by simp only [List.length_drop]; omega

theorem drain_snd_le (s : State32) (buf : List Nat) :
    (drain s buf).2.length ≤ buf.length := by
  by_cases h : 64 ≤ buf.length
  · rw [drain_step s buf h]
    have := drain_snd_le (process_block s (buf.take 64)) (buf.drop 64)
    simp [List.length_drop] at this
    omega
  · rw [drain_small s buf (by omega)]
termination_by buf.length
decreasing_by simp only [List.length_drop]; omega

/-! ### Streaming equivalence of `update` -/

theorem update_update (e : SMCHash) (x y : List Nat) :
    (e.update x).update y = e.update (x ++ y) := by
  simp only [SMCHash.update]
  rw [← List.append_assoc, drain_append e.state (e.buffer ++ x) y]
  simp only [SMCHash.mk.injEq, List.length_append]
  refine ⟨trivial, trivial, ?_⟩
  omega

theorem new_update_nil : SMCHash.new.update [] = SMCHash.new := rfl

theorem foldl_update_flatten (parts : List (List Nat)) :
    ∀ (e : SMCHash) (x : List Nat),
      parts.foldl SMCHash.update (e.update x) = e.update (x ++ parts.flatten) := by
  induction parts with
  | nil => intro e x; simp
  | cons p ps ih =>
    intro e x
    simp only [List.foldl_cons, List.flatten_cons]
    rw [update_update, ih, List.append_assoc]

/-- C9: streaming equivalence — updating with `x` and then with `y` leaves any
engine in exactly the state a single update with `x ++ y` produces (state
words, buffer and byte counter), and consequently the one-shot digest of any
byte sequence equals feeding any partition of it through consecutive `update`
calls and finalizing. -/
theorem streaming_equivalence :
    (∀ (e : SMCHash) (x y : List Nat), (e.update x).update y = e.update (x ++ y)) ∧
    (∀ parts : List (List Nat),
      SMCHash.hash parts.flatten = (parts.foldl SMCHash.update SMCHash.new).finalize) := by
  refine ⟨update_update, fun parts => ?_⟩
  have h : parts.foldl SMCHash.update SMCHash.new = SMCHash.new.update parts.flatten := by
    have h0 := foldl_update_flatten parts SMCHash.new []
    rw [new_update_nil] at h0
    simpa using h0
  rw [SMCHash.hash, h]

/-! ### The engine invariant -/

theorem update_buffer_lt (e : SMCHash) (d : List Nat) : (e.update d).buffer.length < 64 :=
  drain_snd_lt _ _

theorem foldl_update_total (ds : List (List Nat)) :
    (ds.foldl SMCHash.update SMCHash.new).total_bytes =
      (ds.map List.length).sum % 18446744073709551616 := by
  induction ds using List.reverseRecOn with
  | nil => rfl
  | append_singleton ds d ih =>
    rw [List.foldl_append]
    simp only [List.foldl_cons, List.foldl_nil, SMCHash.update]
    rw [ih]
    simp only [List.map_append, List.map_cons, List.map_nil, List.sum_append,
      List.sum_cons, List.sum_nil]
    omega

theorem foldl_update_buffer_bound (ds : List (List Nat)) :
    (ds.foldl SMCHash.update SMCHash.new).buffer.length % 64 =
      (ds.map List.length).sum % 64 ∧
    (ds.foldl SMCHash.update SMCHash.new).buffer.length ≤ (ds.map List.length).sum := by
  induction ds using List.reverseRecOn with
  | nil => exact ⟨rfl, Nat.le_refl 0⟩
  | append_singleton ds d ih =>
    obtain ⟨ih1, ih2⟩ := ih
    rw [List.foldl_append]
    simp only [List.foldl_cons, List.foldl_nil, SMCHash.update]
    have h1 := drain_snd_le (ds.foldl SMCHash.update SMCHash.new).state
      ((ds.foldl SMCHash.update SMCHash.new).buffer ++ d)
    have h2 := drain_snd_mod (ds.foldl SMCHash.update SMCHash.new).state
      ((ds.foldl SMCHash.update SMCHash.new).buffer ++ d)
    simp only [List.length_append] at h1 h2
    simp only [List.map_append, List.map_cons, List.map_nil, List.sum_append,
      List.sum_cons, List.sum_nil]
    omega

/-- C10: `new()` starts with an empty buffer and a zero byte counter, and
after any sequence of `update` calls the buffer holds fewer than 64 bytes
while `total_bytes` records the total number of bytes ever submitted (modulo
the `u64` wrap, hence exactly whenever that total fits in 64 bits, in which
case it splits as 64 times the number of compressed chunks plus the buffer
length); the counter never decreases across a further `update`. `update`
itself is a total function — it signals no error. -/
theorem engine_invariant :
    (SMCHash.new.buffer = [] ∧ SMCHash.new.total_bytes = 0) ∧
    (∀ ds : List (List Nat),
      (ds.foldl SMCHash.update SMCHash.new).buffer.length < 64 ∧
      (ds.foldl SMCHash.update SMCHash.new).total_bytes =
        (ds.map List.length).sum % 18446744073709551616 ∧
      ((ds.map List.length).sum < 18446744073709551616 →
        (ds.foldl SMCHash.update SMCHash.new).total_bytes = (ds.map List.length).sum ∧
        ∃ chunks, (ds.map List.length).sum =
          64 * chunks + (ds.foldl SMCHash.update SMCHash.new).buffer.length) ∧
      (∀ d : List Nat, (ds.map List.length).sum + d.length < 18446744073709551616 →
        (ds.foldl SMCHash.update SMCHash.new).total_bytes ≤
          ((ds.foldl SMCHash.update SMCHash.new).update d).total_bytes)) := by
  refine ⟨⟨rfl, rfl⟩, fun ds => ?_⟩
  obtain ⟨hmod, hle⟩ := foldl_update_buffer_bound ds
  have htot := foldl_update_total ds
  have hbuf : (ds.foldl SMCHash.update SMCHash.new).buffer.length < 64 := by
    cases ds using List.reverseRecOn with
    | nil => decide
    | append_singleton ds d _ => rw [List.foldl_append]; exact update_buffer_lt _ _
  refine ⟨hbuf, htot, fun hlt => ⟨?_, ?_⟩, fun d hlt => ?_⟩
  · rw [htot, Nat.mod_eq_of_lt hlt]
  · exact ⟨((ds.map List.length).sum -
      (ds.foldl SMCHash.update SMCHash.new).buffer.length) / 64, by omega⟩
  · have h2 : ((ds.foldl SMCHash.update SMCHash.new).update d).total_bytes =
        ((ds.foldl SMCHash.update SMCHash.new).total_bytes + d.length) %
          18446744073709551616 := rfl
    rw [h2, htot]
    omega

/-- Witness for `engine_invariant` at a concrete update sequence. -/
theorem engine_invariant_witness :
    (([[1, 2], [3]] : List (List Nat)).foldl SMCHash.update SMCHash.new).total_bytes = 3 ∧
    ∃ chunks, (([[1, 2], [3]] : List (List Nat)).map List.length).sum =
      64 * chunks +
        (([[1, 2], [3]] : List (List Nat)).foldl SMCHash.update SMCHash.new).buffer.length := by
  have h := (engine_invariant.2 [[1, 2], [3]]).2.2.1 (by decide)
  exact ⟨by rw [h.1]; decide, h.2⟩

/-! ### The padding loop of `finalize` -/

theorem padLoop_eq_replicate : ∀ (n : Nat) (buf : List Nat),
    (120 - buf.length % 64) % 64 ≤ n →
    padLoop n buf = buf ++ List.replicate ((120 - buf.length % 64) % 64) 0 := by
  intro n
  induction n with
  | zero =>
    intro buf h
    have h0 : (120 - buf.length % 64) % 64 = 0 := by omega
    simp [padLoop, h0]
  | succ n ih =>
    intro buf h
    by_cases h56 : buf.length % 64 = 56
    · have h0 : (120 - buf.length % 64) % 64 = 0 := by omega
      simp [padLoop, h56, h0]
    · have hc : (120 - (buf ++ [0]).length % 64) % 64 + 1 = (120 - buf.length % 64) % 64 := by
        simp only [List.length_append, List.length_cons, List.length_nil]
        omega
      simp only [padLoop, if_neg h56]
      rw [ih (buf ++ [0]) (by omega), List.append_assoc]
      congr 1
      rw [← hc]
      simp [List.replicate_succ]

theorem drain_single_block (s : State32) (P : List Nat) (h : P.length = 64) :
    drain s P = (process_block s P, []) := by
  rw [drain_step s P (by omega), List.take_of_length_le (by omega),
    List.drop_of_length_le (by omega)]
  exact drain_small _ _ (by simp)

theorem drain_double_block (s : State32) (P : List Nat) (h : P.length = 128) :
    drain s P = (process_block (process_block s (P.take 64)) (P.drop 64), []) := by
  rw [drain_step s P (by omega)]
  exact drain_single_block _ _ (by simp only [List.length_drop]; omega)

/-- C7: on every engine state whose buffer holds fewer than 64 bytes (as every
reachable state does), `finalize` compresses exactly the message
`buffer ‖ 0x80 ‖ 0^k ‖ le8(total_bytes * 8)` where the zero padding brings the
length up to 56 mod 64, that message consists of exactly one or exactly two
64-byte chunks, and the result is the four state words serialized as 4
little-endian bytes each in word order (`stateBytes`). -/
theorem finalize_padding_shape (e : SMCHash) (h : e.buffer.length < 64) :
    ∃ k, (e.buffer.length + 1 + k) % 64 = 56 ∧
      SMCHash.finalize e = stateBytes (drain e.state (paddedMsg e k)).1 ∧
      (((paddedMsg e k).length = 64 ∧
          SMCHash.finalize e = stateBytes (process_block e.state (paddedMsg e k))) ∨
        ((paddedMsg e k).length = 128 ∧
          SMCHash.finalize e =
            stateBytes (process_block
              (process_block e.state ((paddedMsg e k).take 64))
              ((paddedMsg e k).drop 64)))) := by
  refine ⟨(120 - (e.buffer.length + 1) % 64) % 64, by omega, ?_, ?_⟩
  all_goals
    have hpad : padLoop 64 (e.buffer ++ [128]) = (e.buffer ++ [128]) ++
        List.replicate ((120 - (e.buffer.length + 1) % 64) % 64) 0 := by
      have hp := padLoop_eq_replicate 64 (e.buffer ++ [128])
        (by simp only [List.length_append, List.length_cons, List.length_nil]; omega)
      simpa using hp
  all_goals
    have hfin : SMCHash.finalize e = stateBytes (drain e.state
        (paddedMsg e ((120 - (e.buffer.length + 1) % 64) % 64))).1 := by
      simp only [SMCHash.finalize]
      rw [hpad]
      simp [paddedMsg, List.append_assoc]
  · exact hfin
  · have hlen : (paddedMsg e ((120 - (e.buffer.length + 1) % 64) % 64)).length =
        e.buffer.length + 1 + (120 - (e.buffer.length + 1) % 64) % 64 + 8 := by
      simp [paddedMsg, le8, List.length_append, List.length_replicate]
      omega
    have hor : (paddedMsg e ((120 - (e.buffer.length + 1) % 64) % 64)).length = 64 ∨
        (paddedMsg e ((120 - (e.buffer.length + 1) % 64) % 64)).length = 128 := by
      rw [hlen]; omega
    rcases hor with h64 | h128
    · refine Or.inl ⟨h64, ?_⟩
      rw [hfin, drain_single_block _ _ h64]
    · refine Or.inr ⟨h128, ?_⟩
      rw [hfin, drain_double_block _ _ h128]

/-- Witness for `finalize_padding_shape` at the freshly constructed engine. -/
theorem finalize_padding_shape_witness :
    ∃ k, (SMCHash.new.buffer.length + 1 + k) % 64 = 56 ∧
      SMCHash.finalize SMCHash.new =
        stateBytes (drain SMCHash.new.state (paddedMsg SMCHash.new k)).1 ∧
      (((paddedMsg SMCHash.new k).length = 64 ∧
          SMCHash.finalize SMCHash.new =
            stateBytes (process_block SMCHash.new.state (paddedMsg SMCHash.new k))) ∨
        (((paddedMsg SMCHash.new k).length = 128 ∧
          SMCHash.finalize SMCHash.new =
            stateBytes (process_block
              (process_block SMCHash.new.state ((paddedMsg SMCHash.new k).take 64))
              ((paddedMsg SMCHash.new k).drop 64))))) :=
  finalize_padding_shape SMCHash.new (by decide)

/-! ### Shape of the produced digests -/

theorem stateBytes_length (s : State32) : (stateBytes s).length = 16 := by
  simp [stateBytes, le4]

theorem hash_length (data : List Nat) : (SMCHash.hash data).length = 16 :=
  stateBytes_length _

theorem pow_hash_length (data : List Nat) (nonce : Nat) :
    (pow_hash data nonce).length = 16 :=
  stateBytes_length _

theorem stateBytes_lt (s : State32) : ∀ x ∈ stateBytes s, x < 256 := by
  intro x hx
  simp [stateBytes, le4] at hx
  omega

theorem pow_hash_lt (data : List Nat) (nonce : Nat) :
    ∀ x ∈ pow_hash data nonce, x < 256 :=
  stateBytes_lt _

/-! ### The constant-time comparison loop of `verify` -/

theorem nat_or_eq_zero {x y : Nat} : x ||| y = 0 ↔ x = 0 ∧ y = 0 := by
  constructor
  · intro h
    constructor
    · by_contra hne
      obtain ⟨i, hi⟩ := Nat.ne_zero_implies_bit_true hne
      have hb := congrArg (fun z => z.testBit i) h
      simp [hi] at hb
    · by_contra hne
      obtain ⟨i, hi⟩ := Nat.ne_zero_implies_bit_true hne
      have hb := congrArg (fun z => z.testBit i) h
      simp [hi] at hb
  · rintro ⟨rfl, rfl⟩
    rfl

theorem verify_fold_eq_zero (c e : List Nat) :
    ∀ (n acc : Nat),
      ((List.range n).foldl (fun acc i => acc ||| (c.getD i 0 ^^^ e.getD i 0)) acc = 0 ↔
        acc = 0 ∧ ∀ i < n, c.getD i 0 = e.getD i 0) := by
  intro n
  induction n with
  | zero => intro acc; simp
  | succ n ih =>
    intro acc
    rw [List.range_succ, List.foldl_append]
    simp only [List.foldl_cons, List.foldl_nil]
    rw [nat_or_eq_zero, ih, Nat.xor_eq_zero]
    constructor
    · rintro ⟨⟨h1, h2⟩, h3⟩
      refine ⟨h1, fun i hi => ?_⟩
      rcases Nat.lt_succ_iff_lt_or_eq.mp hi with hlt | heq
      · exact h2 i hlt
      · subst heq; exact h3
    · rintro ⟨h1, h2⟩
      exact ⟨⟨h1, fun i hi => h2 i (Nat.lt_succ_of_lt hi)⟩, h2 n (Nat.lt_succ_self n)⟩

theorem getD_eq_of_lt {l : List Nat} {i : Nat} (h : i < l.length) :
    l.getD i 0 = l[i] := by
  rw [List.getD_eq_getElem?_getD, List.getElem?_eq_getElem h]
  rfl

theorem getD_of_get?_some {l : List Nat} {i b : Nat} (h : l.get? i = some b) :
    l.getD i 0 = b := by
  rw [List.getD_eq_getElem?_getD, ← List.get?_eq_getElem?, h]
  rfl

/-- C6: digest-verification equivalence and round trip — `verify` returns
true exactly when the recomputed digest equals the expected 16-byte hash
(the or-of-xor accumulator is zero precisely on byte-for-byte equality), and
in particular every input verifies against its own digest. -/
theorem verify_digest_iff (data expected_hash : List Nat)
    (hlen : expected_hash.length = 16) :
    (SMCHash.verify data expected_hash = true ↔ SMCHash.hash data = expected_hash) ∧
    SMCHash.verify data (SMCHash.hash data) = true := by
  have main : ∀ (eh : List Nat), eh.length = 16 →
      (SMCHash.verify data eh = true ↔ SMCHash.hash data = eh) := by
    intro eh hl
    simp only [SMCHash.verify]
    rw [beq_iff_eq, verify_fold_eq_zero]
    constructor
    · rintro ⟨-, h2⟩
      apply List.ext_getElem (by rw [hash_length, hl])
      intro i h1 h2'
      have hi : i < 16 := by rw [hash_length] at h1; exact h1
      have hgd := h2 i hi
      rwa [getD_eq_of_lt h1, getD_eq_of_lt h2'] at hgd
    · rintro rfl
      exact ⟨rfl, fun i _ => rfl⟩
  exact ⟨main expected_hash hlen, (main (SMCHash.hash data) (hash_length data)).mpr rfl⟩

/-- Witness for `verify_digest_iff` at the empty input. -/
theorem verify_digest_iff_witness :
    (SMCHash.verify [] (SMCHash.hash []) = true ↔
      SMCHash.hash [] = SMCHash.hash []) ∧
    SMCHash.verify [] (SMCHash.hash []) = true :=
  verify_digest_iff [] (SMCHash.hash []) (hash_length [])

/-! ### Totality of the proof-of-work checks on the declared domain -/

theorem checkZeros_isSome (h : List Nat) :
    ∀ (r i : Nat), i + r ≤ h.length → (checkZeros h i r).isSome = true := by
  intro r
  induction r with
  | zero => intro i _; rfl
  | succ r ih =>
    intro i hir
    obtain ⟨b, hb⟩ : ∃ b, h.get? i = some b := by
      cases hg : h.get? i with
      | none => rw [List.get?_eq_none] at hg; omega
      | some b => exact ⟨b, rfl⟩
    simp only [checkZeros, hb]
    split
    · rfl
    · exact ih (i + 1) (by omega)

theorem checkZeros_true (h : List Nat) :
    ∀ (r i : Nat), checkZeros h i r = some true →
      ∀ j, i ≤ j → j < i + r → h.get? j = some 0 := by
  intro r
  induction r with
  | zero => intro i _ j h1 h2; omega
  | succ r ih =>
    intro i hc j h1 h2
    rcases hg : h.get? i with _ | b
    · simp only [checkZeros, hg] at hc
      exact Option.noConfusion hc
    · simp only [checkZeros, hg] at hc
      by_cases hb0 : b ≠ 0
      · rw [if_pos hb0] at hc
        simp at hc
      · rw [if_neg hb0] at hc
        push_neg at hb0
        by_cases hji : j = i
        · subst hji; rw [hg, hb0]
        · exact ih (i + 1) hc j (by omega) (by omega)

/-- C4: totality of verification on the declared domain — for difficulties up
to 128 and a 16-byte expected hash, digest verification is a total boolean
function, the recomputed digest has all 16 byte positions in bounds, and
`verify_proof_of_work` returns `some` boolean (never the out-of-bounds panic,
modelled as `none`), with any hash mismatch yielding `some false`. -/
theorem verification_total (data expected_hash : List Nat) (nonce difficulty : Nat)
    (hd : difficulty ≤ 128) (hlen : expected_hash.length = 16) :
    (∃ b : Bool, SMCHash.verify data expected_hash = b) ∧
    (SMCHash.hash data).length = 16 ∧
    (∃ b : Bool, SMCHash.verify_proof_of_work data nonce difficulty expected_hash = some b) ∧
    (pow_hash data nonce ≠ expected_hash →
      SMCHash.verify_proof_of_work data nonce difficulty expected_hash = some false) := by
  refine ⟨⟨_, rfl⟩, hash_length data, ?_, ?_⟩
  · simp only [SMCHash.verify_proof_of_work]
    by_cases heq : pow_hash data nonce ≠ expected_hash
    · rw [if_pos heq]; exact ⟨false, rfl⟩
    · rw [if_neg heq]
      have hsome := checkZeros_isSome (pow_hash data nonce) (difficulty / 8) 0
        (by rw [pow_hash_length]; omega)
      obtain ⟨v, hv⟩ := Option.isSome_iff_exists.mp hsome
      rw [hv]
      cases v with
      | false => exact ⟨false, rfl⟩
      | true =>
        by_cases hbits : difficulty % 8 > 0
        · rw [if_pos hbits]
          obtain ⟨b, hb⟩ : ∃ b, (pow_hash data nonce).get? (difficulty / 8) = some b := by
            cases hg : (pow_hash data nonce).get? (difficulty / 8) with
            | none => rw [List.get?_eq_none, pow_hash_length] at hg; omega
            | some b => exact ⟨b, rfl⟩
          rw [hb, if_neg (show ¬difficulty % 8 = 0 by omega)]
          by_cases hm : b &&& 255 >>> (8 - difficulty % 8) ≠ 0
          · refine ⟨false, ?_⟩
            show (if b &&& 255 >>> (8 - difficulty % 8) ≠ 0 then (some false : Option Bool)
              else some true) = some false
            rw [if_pos hm]
          · refine ⟨true, ?_⟩
            show (if b &&& 255 >>> (8 - difficulty % 8) ≠ 0 then (some false : Option Bool)
              else some true) = some true
            rw [if_neg hm]
        · rw [if_neg hbits]; exact ⟨true, rfl⟩
  · intro hne
    simp only [SMCHash.verify_proof_of_work]
    rw [if_pos hne]

/-- Witness for `verification_total` at a concrete mismatching input. -/
theorem verification_total_witness :
    (∃ b : Bool, SMCHash.verify [] (List.replicate 16 0) = b) ∧
    (SMCHash.hash []).length = 16 ∧
    (∃ b : Bool, SMCHash.verify_proof_of_work [] 0 128 (List.replicate 16 0) = some b) ∧
    (pow_hash [] 0 ≠ List.replicate 16 0 →
      SMCHash.verify_proof_of_work [] 0 128 (List.replicate 16 0) = some false) :=
  verification_total [] (List.replicate 16 0) 0 128 (by decide) (by decide)

/-! ### Soundness of the proof-of-work search -/

theorem create_aux_eq_some (data : List Nat) (difficulty target_mask : Nat) :
    ∀ (fuel start nonce : Nat) (h : List Nat),
      create_aux data difficulty target_mask fuel start = some (nonce, h) →
      h = pow_hash data nonce ∧
      checkZeros h 0 (difficulty / 8) = some true ∧
      (difficulty % 8 > 0 →
        ∃ b, h.get? (difficulty / 8) = some b ∧ b &&& target_mask = 0) := by
  intro fuel
  induction fuel with
  | zero => intro start nonce h hc; exact Option.noConfusion hc
  | succ fuel ih =>
    intro start nonce h hc
    rcases hz : checkZeros (pow_hash data start) 0 (difficulty / 8) with _ | v
    · simp only [create_aux, hz] at hc
      exact Option.noConfusion hc
    · cases v with
      | false =>
        simp only [create_aux, hz] at hc
        exact ih (start + 1) nonce h hc
      | true =>
        simp only [create_aux, hz] at hc
        by_cases hbits : difficulty % 8 > 0
        · rw [if_pos hbits] at hc
          rcases hg : (pow_hash data start).get? (difficulty / 8) with _ | b
          · rw [hg] at hc
            exact Option.noConfusion hc
          · rw [hg] at hc
            replace hc : (if b &&& target_mask = 0 then
                (some (start, pow_hash data start) : Option (Nat × List Nat))
              else create_aux data difficulty target_mask fuel (start + 1)) =
                some (nonce, h) := hc
            by_cases hm : b &&& target_mask = 0
            · rw [if_pos hm] at hc
              obtain ⟨rfl, rfl⟩ : start = nonce ∧ pow_hash data start = h := by
                have := Option.some.inj hc
                exact ⟨congrArg Prod.fst this, congrArg Prod.snd this⟩
              exact ⟨rfl, hz, fun _ => ⟨b, hg, hm⟩⟩
            · rw [if_neg hm] at hc
              exact ih (start + 1) nonce h hc
        · rw [if_neg hbits] at hc
          obtain ⟨rfl, rfl⟩ : start = nonce ∧ pow_hash data start = h := by
            have := Option.some.inj hc
            exact ⟨congrArg Prod.fst this, congrArg Prod.snd this⟩
          exact ⟨rfl, hz, fun hb => absurd hb hbits⟩

/-- Inversion of a successful `create_proof_of_work`: the returned hash is the
digest of `data ‖ le8 nonce`, its first `difficulty / 8` bytes passed the zero
scan, and (when `difficulty % 8 > 0`) the next byte is annulled by the
up-front target mask. -/
theorem create_pow_eq_some (data : List Nat) (difficulty fuel nonce : Nat)
    (h : List Nat)
    (hc : SMCHash.create_proof_of_work data difficulty fuel = some (nonce, h)) :
    h = pow_hash data nonce ∧
    checkZeros h 0 (difficulty / 8) = some true ∧
    (difficulty % 8 > 0 →
      ∃ b, h.get? (difficulty / 8) = some b ∧
        b &&& (if 8 ≤ difficulty then 255 else 255 >>> (8 - difficulty)) = 0) :=
  create_aux_eq_some data difficulty _ fuel 0 nonce h hc

theorem create_sound_verify (data : List Nat) (difficulty fuel nonce : Nat)
    (h : List Nat) (hd : difficulty ≤ 128)
    (hc : SMCHash.create_proof_of_work data difficulty fuel = some (nonce, h)) :
    SMCHash.verify_proof_of_work data nonce difficulty h = some true := by
  obtain ⟨hh, hz, hmask⟩ := create_pow_eq_some data difficulty fuel nonce h hc
  simp only [SMCHash.verify_proof_of_work]
  rw [if_neg (by rw [hh]; simp)]
  rw [← hh, hz]
  by_cases hbits : difficulty % 8 > 0
  · rw [if_pos hbits]
    obtain ⟨b, hb, hm⟩ := hmask hbits
    rw [hb, if_neg (show ¬difficulty % 8 = 0 by omega)]
    have hb0 : b &&& 255 >>> (8 - difficulty % 8) = 0 := by
      by_cases h8 : 8 ≤ difficulty
      · rw [if_pos h8] at hm
        have hblt : b < 256 := pow_hash_lt data nonce b (hh ▸ List.get?_mem hb)
        have hbeq : b = 0 := by
          have h255 : b &&& 255 = b := by
            have := Nat.and_pow_two_sub_one_of_lt_two_pow (n := 8) hblt
            simpa using this
          rw [h255] at hm
          exact hm
        rw [hbeq]
        simp
      · rw [if_neg h8] at hm
        have hdm : difficulty % 8 = difficulty := Nat.mod_eq_of_lt (by omega)
        rw [hdm]
        exact hm
    show (if b &&& 255 >>> (8 - difficulty % 8) ≠ 0 then (some false : Option Bool)
      else some true) = some true
    rw [if_neg (by omega)]
  · rw [if_neg hbits]

/-- C3: proof-of-work soundness — whenever `create_proof_of_work` terminates
with `(nonce, h)` for a difficulty at most 128, the code's own
`verify_proof_of_work` accepts it, the first `difficulty / 8` bytes of `h`
are zero, and when `difficulty % 8 > 0` the low `difficulty % 8` bits of byte
`difficulty / 8` of `h` are zero. -/
theorem pow_soundness (data : List Nat) (difficulty fuel nonce : Nat)
    (h : List Nat) (hd : difficulty ≤ 128)
    (hc : SMCHash.create_proof_of_work data difficulty fuel = some (nonce, h)) :
    SMCHash.verify_proof_of_work data nonce difficulty h = some true ∧
    (∀ i < difficulty / 8, h.getD i 0 = 0) ∧
    (difficulty % 8 > 0 →
      h.getD (difficulty / 8) 0 &&& (2 ^ (difficulty % 8) - 1) = 0) := by
  obtain ⟨hh, hz, hmask⟩ := create_pow_eq_some data difficulty fuel nonce h hc
  refine ⟨create_sound_verify data difficulty fuel nonce h hd hc, ?_, ?_⟩
  · intro i hi
    have := checkZeros_true h (difficulty / 8) 0 hz i (Nat.zero_le i) (by omega)
    exact getD_of_get?_some this
  · intro hbits
    obtain ⟨b, hb, hm⟩ := hmask hbits
    rw [getD_of_get?_some hb]
    by_cases h8 : 8 ≤ difficulty
    · rw [if_pos h8] at hm
      have hblt : b < 256 := pow_hash_lt data nonce b (hh ▸ List.get?_mem hb)
      have hbeq : b = 0 := by
        have h255 : b &&& 255 = b := by
          have := Nat.and_pow_two_sub_one_of_lt_two_pow (n := 8) hblt
          simpa using this
        rw [h255] at hm
        exact hm
      rw [hbeq]
      simp
    · rw [if_neg h8] at hm
      have hdm : difficulty % 8 = difficulty := Nat.mod_eq_of_lt (by omega)
      rw [hdm]
      have hms : 255 >>> (8 - difficulty) = 2 ^ difficulty - 1 := by
        interval_cases difficulty <;> decide
      rw [← hms]
      exact hm

set_option maxRecDepth 8000 in
/-- Witness for `pow_soundness` at difficulty 8, where the search succeeds at
nonce 4. -/
theorem pow_soundness_witness :
    SMCHash.verify_proof_of_work [154] 4 8 (pow_hash [154] 4) = some true ∧
    (∀ i < 8 / 8, (pow_hash [154] 4).getD i 0 = 0) ∧
    (8 % 8 > 0 →
      (pow_hash [154] 4).getD (8 / 8) 0 &&& (2 ^ (8 % 8) - 1) = 0) :=
  pow_soundness [154] 8 5 4 (pow_hash [154] 4) (by decide) (by rfl)

/-! ### The example Block -/

/-- C5: Block round trip — whenever `Block::new` terminates (the embedded
mining search succeeds within its fuel) for a difficulty at most 128, the
block stores the given `prev_hash`, payload and timestamp unchanged together
with the `(nonce, hash)` pair mined over
`prev_hash ‖ payload ‖ le8 timestamp`, and `validate` with the same
difficulty accepts the block. -/
theorem block_roundtrip (prev_hash payload : List Nat)
    (timestamp difficulty fuel : Nat) (b : Block) (hd : difficulty ≤ 128)
    (hb : Block.new prev_hash payload timestamp difficulty fuel = some b) :
    b.prev_hash = prev_hash ∧ b.data = payload ∧ b.timestamp = timestamp ∧
    SMCHash.create_proof_of_work (prev_hash ++ payload ++ le8 timestamp)
      difficulty fuel = some (b.nonce, b.hash) ∧
    b.validate difficulty = some true := by
  have hB := hb
  simp only [Block.new, Block.get_hashable_data] at hB
  rcases hc2 : SMCHash.create_proof_of_work (prev_hash ++ payload ++ le8 timestamp)
      difficulty fuel with _ | nh
  · rw [hc2] at hB
    exact Option.noConfusion hB
  · obtain ⟨n, h⟩ := nh
    rw [hc2] at hB
    replace hB : (some ⟨prev_hash, payload, timestamp, n, h⟩ : Option Block) = some b := hB
    obtain rfl : b = (⟨prev_hash, payload, timestamp, n, h⟩ : Block) :=
      (Option.some.inj hB).symm
    refine ⟨rfl, rfl, rfl, ?_, ?_⟩
    · simpa using hc2
    · exact create_sound_verify (prev_hash ++ payload ++ le8 timestamp)
        difficulty fuel n h hd hc2

set_option maxRecDepth 8000 in
/-- Witness for `block_roundtrip` at difficulty 0, where mining succeeds at
nonce 0 on the first attempt. -/
theorem block_roundtrip_witness :
    (⟨[], [], 0, 0, pow_hash ([] ++ [] ++ le8 0) 0⟩ : Block).prev_hash = [] ∧
    (⟨[], [], 0, 0, pow_hash ([] ++ [] ++ le8 0) 0⟩ : Block).data = [] ∧
    (⟨[], [], 0, 0, pow_hash ([] ++ [] ++ le8 0) 0⟩ : Block).timestamp = 0 ∧
    SMCHash.create_proof_of_work ([] ++ [] ++ le8 0) 0 1 =
      some ((⟨[], [], 0, 0, pow_hash ([] ++ [] ++ le8 0) 0⟩ : Block).nonce,
        (⟨[], [], 0, 0, pow_hash ([] ++ [] ++ le8 0) 0⟩ : Block).hash) ∧
    (⟨[], [], 0, 0, pow_hash ([] ++ [] ++ le8 0) 0⟩ : Block).validate 0 = some true :=
  block_roundtrip [] [] 0 0 1 _ (by decide) (by rfl)

/-! ### Structure of the compression function -/

theorem rotl_spec (x n : Nat) (hx : x < 2 ^ 32) (h1 : 1 ≤ n) (h2 : n ≤ 31) :
    rotl x n = x % 2 ^ (32 - n) * 2 ^ n + x / 2 ^ (32 - n) ∧ rotl x n < 2 ^ 32 := by
  have hpow : (2 : Nat) ^ (32 - n) * 2 ^ n = 2 ^ 32 := by
    rw [← pow_add]
    congr 1
    omega
  have hq : x / 2 ^ (32 - n) < 2 ^ n := by
    apply Nat.div_lt_of_lt_mul
    rw [hpow]
    exact hx
  have hshl : (x <<< n) % 4294967296 = x % 2 ^ (32 - n) * 2 ^ n := by
    rw [Nat.shiftLeft_eq]
    have h32 : (4294967296 : Nat) = 2 ^ (32 - n) * 2 ^ n := by rw [hpow]; norm_num
    rw [h32, Nat.mul_mod_mul_right]
  have hshr : x >>> (32 - n) = x / 2 ^ (32 - n) := Nat.shiftRight_eq_div_pow x (32 - n)
  have hrot : rotl x n = x % 2 ^ (32 - n) * 2 ^ n + x / 2 ^ (32 - n) := by
    rw [rotl, hshl, hshr, Nat.mul_comm (x % 2 ^ (32 - n)) (2 ^ n)]
    exact (Nat.mul_add_lt_is_or hq (x % 2 ^ (32 - n))).symm
  refine ⟨hrot, ?_⟩
  rw [hrot]
  have hr : x % 2 ^ (32 - n) < 2 ^ (32 - n) := Nat.mod_lt _ (by positivity)
  calc x % 2 ^ (32 - n) * 2 ^ n + x / 2 ^ (32 - n)
      < x % 2 ^ (32 - n) * 2 ^ n + 2 ^ n := by omega
    _ = (x % 2 ^ (32 - n) + 1) * 2 ^ n := by ring
    _ ≤ 2 ^ (32 - n) * 2 ^ n := Nat.mul_le_mul_right _ (by omega)
    _ = 2 ^ 32 := hpow

set_option maxRecDepth 4000 in
/-- C8: the compression function interprets the chunk as sixteen little-endian
32-bit words and runs 64 register-rotating steps (4 rounds of 16, here
flattened as step `t` with round `t / 16` and index `t % 16`); each step sets
`new_a = d, new_c = b, new_d = c` and
`new_b = b + rotl(a + f + word + k, s) mod 2^32`; every rotation amount lies
in `1..31`; `rotl` is a genuine circular left shift on 32-bit values; and the
final state is the elementwise wrapping sum of the original state words and
the final registers, each below `2^32`. -/
theorem compression_structure (s : State32) (block : List Nat) :
    (process_block s block =
      { s0 := (s.s0 + ((List.range 64).foldl
            (fun r t => mixStep (blockWord block) (t / 16) (t % 16) r)
            ⟨s.s0, s.s1, s.s2, s.s3⟩).a) % 2 ^ 32
        s1 := (s.s1 + ((List.range 64).foldl
            (fun r t => mixStep (blockWord block) (t / 16) (t % 16) r)
            ⟨s.s0, s.s1, s.s2, s.s3⟩).b) % 2 ^ 32
        s2 := (s.s2 + ((List.range 64).foldl
            (fun r t => mixStep (blockWord block) (t / 16) (t % 16) r)
            ⟨s.s0, s.s1, s.s2, s.s3⟩).c) % 2 ^ 32
        s3 := (s.s3 + ((List.range 64).foldl
            (fun r t => mixStep (blockWord block) (t / 16) (t % 16) r)
            ⟨s.s0, s.s1, s.s2, s.s3⟩).d) % 2 ^ 32 }) ∧
    (∀ (w : Nat → Nat) (round i a b c d : Nat),
      mixStep w round i ⟨a, b, c, d⟩ =
        ⟨d, (b + rotl ((((a + fMix round b c d) % 2 ^ 32 + w (wordIdx round i)) % 2 ^ 32 +
            kConst round i) % 2 ^ 32) (rotAmount round i)) % 2 ^ 32, b, c⟩) ∧
    (∀ round < 4, ∀ i < 16, 1 ≤ rotAmount round i ∧ rotAmount round i ≤ 31) ∧
    (∀ x n, x < 2 ^ 32 → 1 ≤ n → n ≤ 31 →
      rotl x n = x % 2 ^ (32 - n) * 2 ^ n + x / 2 ^ (32 - n) ∧ rotl x n < 2 ^ 32) ∧
    ((process_block s block).s0 < 2 ^ 32 ∧ (process_block s block).s1 < 2 ^ 32 ∧
      (process_block s block).s2 < 2 ^ 32 ∧ (process_block s block).s3 < 2 ^ 32) := by
  refine ⟨by rfl, fun w round i a b c d => rfl, by decide, rotl_spec, ?_⟩
  refine ⟨?_, ?_, ?_, ?_⟩ <;>
    · simp only [process_block]
      exact Nat.mod_lt _ (by norm_num)

/-- Witness for `compression_structure`: the circular-shift characterization
of `rotl` evaluated at the top bit. -/
theorem compression_structure_witness : rotl 2147483648 1 = 1 := by
  have h := (compression_structure ⟨0, 0, 0, 0⟩ []).2.2.2.1 2147483648 1
    (by decide) (by decide) (by decide)
  simpa using h.1

/-! ### Concrete behaviour of the proof-of-work search at its corner cases -/

set_option maxRecDepth 8000 in
/-- C2 (code bug): the code does not reject difficulties above 128 — at
difficulty 255 `verify_proof_of_work` silently returns the boolean
`some false` on a mismatching hash instead of signalling an error, and the
operations expose no error channel at all. -/
theorem oversized_difficulty_not_rejected :
    SMCHash.verify_proof_of_work [] 0 255 (List.replicate 16 1) = some false := by
  rfl

set_option maxRecDepth 8000 in
/-- C1 (code bug): at difficulty 9 the miner's up-front `target_mask` is
`0xFF` (the `difficulty >= 8` branch), so the search rejects nonces whose
digest satisfies the spec's 9-leading-zero-bit predicate: on data `[0x9a]`
the digest at nonce 4 satisfies the spec predicate and the code's own
`verify_proof_of_work` accepts it, yet `create_proof_of_work` run over nonces
0..4 (fuel 5) accepts none of them — so a nonce it eventually returns cannot
be the smallest one satisfying the spec's predicate. -/
theorem create_pow_skips_spec_minimal_nonce :
    SMCHash.create_proof_of_work [154] 9 5 = none ∧
    specLeadingZeros (pow_hash [154] 4) 9 = true ∧
    SMCHash.verify_proof_of_work [154] 4 9 (pow_hash [154] 4) = some true := by
  refine ⟨?_, ?_, ?_⟩ <;> rfl
